import Mathlib

/-!
Verification development for the client-side message publishing batcher with
asynchronous completion tracking described by the repository's specification,
together with models of two sample functions from
`pubsub/cloud-client/publisher.py`.

The batching core (Pending Message Store, Batch Accumulator, Flush Scheduler,
Completion Tracker) is not present under the repository's sources — the sample
scripts only call into it — so it is modelled from the specification's words.
-/

namespace Batcher

/-- Modelled from the spec: a Message is an immutable payload (byte sequence)
plus an unordered mapping of string attribute keys to string values
(spec §3 Data Model).  The batching core is missing from the repository's
sources (the samples only call the client library), so it is modelled here. -/
structure Message where
  data : List Nat
  attrs : List (String × String)
deriving DecidableEq, Repr

/-- Modelled from the spec: the byte size of a message is the length of its
payload byte sequence. -/
def Message.size (m : Message) : Nat := m.data.length

/-- Modelled from the spec: a PublishRequest is a Message plus a locally
generated sequence number (spec §3).  The sequence number doubles as the
index of the request's PublishFuture. -/
structure PublishRequest where
  msg : Message
  seq : Nat
deriving DecidableEq, Repr

/-- Modelled from the spec: batch states OPEN, CLOSING, SENT, FAILED
(spec §3, §4.4).  `OPEN` is spelled `opened` because `open` is a Lean
keyword. -/
inductive BatchState where
  | opened
  | closing
  | sent
  | failed
deriving DecidableEq, Repr

/-- Modelled from the spec: a Batch is an ordered sequence of PublishRequest
(insertion order preserved), a running byte-size total, a creation timestamp
and a state (spec §3). -/
structure Batch where
  requests : List PublishRequest
  sizeTotal : Nat
  createdAt : Nat
  state : BatchState
deriving DecidableEq, Repr

/-- Modelled from the spec: error kinds `MessageTooLarge` and `TransportError`
(spec §7). -/
inductive PubError where
  | messageTooLarge
  | transportError (e : String)
deriving DecidableEq, Repr

/-- Modelled from the spec: a PublishFuture resolves exactly once to either a
server-assigned message ID (string) or an error (spec §3). -/
inductive FutureState where
  | pending
  | resolvedId (id : String)
  | resolvedErr (e : PubError)
deriving DecidableEq, Repr

/-- Modelled from the spec: transport result — an ordered sequence of message
IDs on success, an error otherwise (spec §4.3). -/
inductive TransportResult where
  | ok (ids : List String)
  | err (e : String)
deriving DecidableEq, Repr

/-- Modelled from the spec: BatchSettings with `max_bytes`, `max_messages`
and `max_latency` (spec §3). -/
structure BatchSettings where
  maxBytes : Nat
  maxMessages : Nat
  maxLatency : Nat
deriving DecidableEq, Repr

/-- Modelled from the spec: the publisher state — the current OPEN batch
exclusively owned by the Batch Accumulator, the batches already handed to the
Flush Scheduler / Publish Transport (in close order), one future per
submitted message indexed by its sequence number, and the current time. -/
structure PubState where
  settings : BatchSettings
  current : Option Batch
  closed : List Batch
  futures : List FutureState
  now : Nat
deriving DecidableEq, Repr

/-- Modelled from the spec: the initial publisher state for a given
configuration. -/
def init (cfg : BatchSettings) : PubState :=
  { settings := cfg, current := none, closed := [], futures := [], now := 0 }

/-- Modelled from the spec: idempotent close — closing an already
CLOSING/SENT batch is ignored (spec §4.2). -/
def Batch.close (b : Batch) : Batch :=
  if b.state = BatchState.opened then { b with state := BatchState.closing } else b

/-- The synchronous result of `submit`: either the sequence number of the
accepted message's future, or a `MessageTooLarge` rejection carrying the
sequence number of the future resolved with that error. -/
inductive SubmitResult where
  | accepted (seq : Nat)
  | tooLarge (seq : Nat)
deriving DecidableEq, Repr

/-- Modelled from the spec: `submit(message) -> PublishFuture` (spec §4.1).
A message whose byte size alone exceeds `max_bytes` fails immediately with
`MessageTooLarge`, its future resolved with the error, before entering any
batch.  Otherwise the message is appended to the current OPEN batch (a new
batch is created if none is OPEN); afterwards, if the resulting batch size is
at least `max_bytes` or its message count at least `max_messages`, the batch
transitions to CLOSING synchronously and is handed off. -/
def submit (s : PubState) (m : Message) : PubState × SubmitResult :=
  if s.settings.maxBytes < m.size then
    ({ s with futures := s.futures ++ [FutureState.resolvedErr PubError.messageTooLarge] },
     SubmitResult.tooLarge s.futures.length)
  else
    let b : Batch :=
      match s.current with
      | some b => b
      | none => { requests := [], sizeTotal := 0, createdAt := s.now, state := BatchState.opened }
    let b' : Batch :=
      { b with requests := b.requests ++ [⟨m, s.futures.length⟩],
               sizeTotal := b.sizeTotal + m.size }
    if s.settings.maxBytes ≤ b'.sizeTotal ∨ s.settings.maxMessages ≤ b'.requests.length then
      ({ s with current := none,
                closed := s.closed ++ [{ b' with state := BatchState.closing }],
                futures := s.futures ++ [FutureState.pending] },
       SubmitResult.accepted s.futures.length)
    else
      ({ s with current := some b',
                futures := s.futures ++ [FutureState.pending] },
       SubmitResult.accepted s.futures.length)

/-- Modelled from the spec: detach the current batch, close it and hand it to
the Flush Scheduler's queue (spec §4.2). -/
def closeCurrent (s : PubState) : PubState :=
  match s.current with
  | none => s
  | some b => { s with current := none, closed := s.closed ++ [b.close] }

/-- Modelled from the spec: the one-shot `max_latency` timer firing — it
closes the current batch only once the batch's age has reached `max_latency`
(spec §4.2). -/
def timerTrip (s : PubState) : PubState :=
  match s.current with
  | none => s
  | some b => if b.createdAt + s.settings.maxLatency ≤ s.now then closeCurrent s else s

/-- Resolve the futures of the requests with the i-th ID corresponding to the
i-th PublishRequest (spec §4.3, §4.4). -/
def setIds : List FutureState → List PublishRequest → List String → List FutureState
  | fs, r :: rs, id :: ids => setIds (fs.set r.seq (FutureState.resolvedId id)) rs ids
  | fs, _, _ => fs

/-- Resolve the futures of all requests with the same transport error
(spec §4.4). -/
def setErr : List FutureState → String → List PublishRequest → List FutureState
  | fs, _, [] => fs
  | fs, e, r :: rs => setErr (fs.set r.seq (FutureState.resolvedErr (PubError.transportError e))) e rs

/-- Modelled from the spec: the Completion Tracker's `resolve(batch, result)`
(spec §4.4): on success each future gets its corresponding message ID by
position, on failure every future in the batch gets the same error. -/
def resolveBatch (fs : List FutureState) (b : Batch) (res : TransportResult) : List FutureState :=
  match res with
  | TransportResult.ok ids => setIds fs b.requests ids
  | TransportResult.err e => setErr fs e b.requests

/-- Terminal state of a batch given its transport result (spec §4.4). -/
def finalState : TransportResult → BatchState
  | TransportResult.ok _ => BatchState.sent
  | TransportResult.err _ => BatchState.failed

/-- Whether a transport result honours the transport contract for a request
list: on success the ordered ID sequence matches it, i-th ID to i-th
request (spec §4.3). -/
def validFor (res : TransportResult) (rs : List PublishRequest) : Prop :=
  match res with
  | TransportResult.ok ids => ids.length = rs.length
  | TransportResult.err _ => True

instance (res : TransportResult) (rs : List PublishRequest) : Decidable (validFor res rs) := by
  unfold validFor
  cases res <;> infer_instance

/-- Whether a transport result honours the transport contract for a batch
(spec §4.3). -/
def validResult (res : TransportResult) (b : Batch) : Prop :=
  validFor res b.requests

instance (res : TransportResult) (b : Batch) : Decidable (validResult res b) := by
  unfold validResult
  infer_instance

/-- Modelled from the spec: completion of the transport call for the batch at
index `i` of the close-order queue.  The batch moves from CLOSING to its
terminal state SENT or FAILED and the Completion Tracker resolves its
futures; a result that does not honour the transport contract, or a batch
not in CLOSING state, is ignored. -/
def transportDone (s : PubState) (i : Nat) (res : TransportResult) : PubState :=
  match s.closed.get? i with
  | none => s
  | some b =>
    if b.state = BatchState.closing ∧ validResult res b then
      { s with closed := s.closed.set i { b with state := finalState res },
               futures := resolveBatch s.futures b res }
    else s

/-- The events of the batching core's step relation. -/
inductive Event where
  | submit (m : Message)
  | timer
  | transport (i : Nat) (res : TransportResult)
  | tick (d : Nat)

/-- One step of the batching core. -/
def step (s : PubState) : Event → PubState
  | Event.submit m => (submit s m).1
  | Event.timer => timerTrip s
  | Event.transport i res => transportDone s i res
  | Event.tick d => { s with now := s.now + d }

/-- Run a sequence of events from a state. -/
def runFrom (s : PubState) (evs : List Event) : PubState := evs.foldl step s

/-- Run a sequence of events from the initial state: every reachable state of
the batching core is `run cfg evs` for some event list `evs`. -/
def run (cfg : BatchSettings) (evs : List Event) : PubState := runFrom (init cfg) evs

/-- Modelled from the spec: `shutdown()` drains all pending batches and
blocks until every outstanding future is resolved (spec §5, §6): the current
batch is closed, and every batch still in CLOSING state receives its
transport result (given by `oracle`) and has its futures resolved. -/
def shutdown (s : PubState) (oracle : List PublishRequest → TransportResult) : PubState :=
  let s1 := closeCurrent s
  { s1 with
    closed := s1.closed.map (fun b =>
      if b.state = BatchState.closing then { b with state := finalState (oracle b.requests) } else b),
    futures := s1.closed.foldl (fun fs b =>
      if b.state = BatchState.closing then resolveBatch fs b (oracle b.requests) else fs) s1.futures }

/-- The sequence numbers of a batch's requests. -/
def batchSeqs (b : Batch) : List Nat := b.requests.map PublishRequest.seq

/-- All batches of a state, closed ones first, then the current one. -/
def allBatches (s : PubState) : List Batch := s.closed ++ s.current.toList

/-- All sequence numbers appearing in some batch of the state. -/
def allSeqs (s : PubState) : List Nat := (allBatches s).map batchSeqs |>.flatten

/-- The requests built for a message list with consecutive sequence numbers
starting at `k`. -/
def mkReqs : List Message → Nat → List PublishRequest
  | [], _ => []
  | m :: ms, k => ⟨m, k⟩ :: mkReqs ms (k + 1)

/-- A message with `n` zero bytes and no attributes, used as concrete input. -/
def msgOfSize (n : Nat) : Message := ⟨List.replicate n 0, []⟩

/-- The state reached after a non-rejected `submit` appends message `m` to
the current batch `b` but before any threshold check: used to factor the
invariant-preservation proof of `submit` (the threshold branch of `submit`
is `closeCurrent` of this state). -/
def midState (s : PubState) (b : Batch) (m : Message) : PubState :=
  { s with
    current := some { b with
      requests := b.requests ++ [⟨m, s.futures.length⟩],
      sizeTotal := b.sizeTotal + m.size },
    futures := s.futures ++ [FutureState.pending] }

/-- The part of the batch invariant that the code maintains: batches handed
off are never OPEN, and the current (OPEN) batch's running total stays
strictly below `max_bytes`. -/
def OpenBelowCap (s : PubState) : Prop :=
  (∀ b ∈ s.closed, b.state ≠ BatchState.opened) ∧
  (∀ b, s.current = some b → b.sizeTotal < s.settings.maxBytes)

/-- The global well-formedness invariant of reachable publisher states:
handed-off batches are never OPEN, the current batch is OPEN, sequence
numbers are globally distinct and in range, the futures of requests sitting
in OPEN or CLOSING batches are still pending, and every pending future
belongs to some OPEN or CLOSING batch. -/
structure Inv (s : PubState) : Prop where
  closedNotOpen : ∀ b ∈ s.closed, b.state ≠ BatchState.opened
  curOpen : ∀ b, s.current = some b → b.state = BatchState.opened
  seqNodup : (allSeqs s).Nodup
  seqBound : ∀ q ∈ allSeqs s, q < s.futures.length
  livePending : ∀ b ∈ allBatches s,
    b.state = BatchState.opened ∨ b.state = BatchState.closing →
    ∀ r ∈ b.requests, s.futures.get? r.seq = some FutureState.pending
  pendingLive : ∀ q, s.futures.get? q = some FutureState.pending →
    ∃ b ∈ allBatches s, (b.state = BatchState.opened ∨ b.state = BatchState.closing) ∧
      ∃ r ∈ b.requests, r.seq = q

end Batcher

namespace Publisher

/-- Program counter of `publish_messages_with_error_handler`
(publisher.py, lines 159-194): the `for n in range(1, 10)` publish loop,
the `print` statement after it, the trailing `while True: time.sleep(60)`
loop, and the (never reached) return point of the function. -/
inductive EHPc where
  | forLoop (n : Nat)
  | afterPrint
  | whileLoop
  | returned
deriving DecidableEq, Repr

/-- State of `publish_messages_with_error_handler`: program counter plus the
number of messages published (with a done-callback registered) so far. -/
structure EHState where
  pc : EHPc
  published : Nat
deriving DecidableEq, Repr

/-- One small step of `publish_messages_with_error_handler` after
`publisher` and `topic_path` are set up (lines 178-194): at `forLoop n`
with `n < 10` the loop body publishes message number `n` and registers its
callback; at `n = 10` the loop exits to the `print`; after the print the
function enters `while True: time.sleep(60)`, whose body unconditionally
loops back; no rule ever produces `returned`. -/
def ehStep (s : EHState) : EHState :=
  match s.pc with
  | EHPc.forLoop n =>
    if n < 10 then { pc := EHPc.forLoop (n + 1), published := s.published + 1 }
    else { s with pc := EHPc.afterPrint }
  | EHPc.afterPrint => { s with pc := EHPc.whileLoop }
  | EHPc.whileLoop => { s with pc := EHPc.whileLoop }
  | EHPc.returned => s

/-- Initial state of the function body: `for n in range(1, 10)` starts at
`n = 1` with nothing published yet. -/
def ehInit : EHState := { pc := EHPc.forLoop 1, published := 0 }

/-- The state after `k` execution steps. -/
def ehRun (k : Nat) : EHState := Nat.iterate ehStep k ehInit

/-- The eight functions the `__main__` block of publisher.py can dispatch to
(lines 266-282). -/
inductive PublisherCall where
  | listTopics (projectId : String)
  | createTopic (projectId topicName : String)
  | deleteTopic (projectId topicName : String)
  | publishMessages (projectId topicName : String)
  | publishMessagesWithCustomAttributes (projectId topicName : String)
  | publishMessagesWithFutures (projectId topicName : String)
  | publishMessagesWithErrorHandler (projectId topicName : String)
  | publishMessagesWithBatchSettings (projectId topicName : String)
deriving DecidableEq, Repr

/-- Parsed command-line arguments of publisher.py: the required positional
`project_id`, the optional subcommand (argparse `dest='command'`, `none`
when no subcommand is given), and the subcommand's `topic_name` when it has
one. -/
structure Args where
  projectId : String
  command : Option String
  topicName : Option String
deriving DecidableEq, Repr

/-- The seven subcommands that take a positional `topic_name`
(lines 234-262). -/
def commandsWithTopic : List String :=
  ["create", "delete", "publish", "publish-with-custom-attributes",
   "publish-with-futures", "publish-with-error-handler",
   "publish-with-batch-settings"]

/-- Argument parsing as configured in lines 224-264: a required positional
`project_id`; an optional subcommand (`dest='command'`, subparsers are not
required, so with no subcommand parsing succeeds and `command` is `none`);
`list` takes no further argument, the other seven take a required
`topic_name`. -/
def parseArgs : List String → Except String Args
  | [] => Except.error "the following arguments are required: project_id"
  | pid :: rest =>
    match rest with
    | [] => Except.ok ⟨pid, none, none⟩
    | cmd :: rest2 =>
      if cmd = "list" then
        match rest2 with
        | [] => Except.ok ⟨pid, some cmd, none⟩
        | _ => Except.error "unrecognized arguments"
      else if cmd ∈ commandsWithTopic then
        match rest2 with
        | [] => Except.error "the following arguments are required: topic_name"
        | [t] => Except.ok ⟨pid, some cmd, some t⟩
        | _ => Except.error "unrecognized arguments"
      else Except.error "invalid choice"

/-- The `if/elif` dispatch chain of lines 266-282: the function called for
the parsed arguments, or `none` when no branch matches. -/
def dispatch (a : Args) : Option PublisherCall :=
  if a.command = some "list" then
    some (PublisherCall.listTopics a.projectId)
  else if a.command = some "create" then
    some (PublisherCall.createTopic a.projectId (a.topicName.getD ""))
  else if a.command = some "delete" then
    some (PublisherCall.deleteTopic a.projectId (a.topicName.getD ""))
  else if a.command = some "publish" then
    some (PublisherCall.publishMessages a.projectId (a.topicName.getD ""))
  else if a.command = some "publish-with-custom-attributes" then
    some (PublisherCall.publishMessagesWithCustomAttributes a.projectId (a.topicName.getD ""))
  else if a.command = some "publish-with-futures" then
    some (PublisherCall.publishMessagesWithFutures a.projectId (a.topicName.getD ""))
  else if a.command = some "publish-with-error-handler" then
    some (PublisherCall.publishMessagesWithErrorHandler a.projectId (a.topicName.getD ""))
  else if a.command = some "publish-with-batch-settings" then
    some (PublisherCall.publishMessagesWithBatchSettings a.projectId (a.topicName.getD ""))
  else none

end Publisher

namespace Batcher

theorem msgOfSize_size (n : Nat) : (msgOfSize n).size = n := by
  simp [msgOfSize, Message.size]

theorem runFrom_nil (s : PubState) : runFrom s [] = s := rfl

theorem runFrom_cons (s : PubState) (e : Event) (evs : List Event) :
    runFrom s (e :: evs) = runFrom (step s e) evs := rfl

theorem submit_settings (s : PubState) (m : Message) :
    (submit s m).1.settings = s.settings := by
  simp only [submit]
  split_ifs <;> rfl

theorem closeCurrent_settings (s : PubState) :
    (closeCurrent s).settings = s.settings := by
  unfold closeCurrent
  split <;> rfl

theorem timerTrip_settings (s : PubState) :
    (timerTrip s).settings = s.settings := by
  unfold timerTrip
  split
  · rfl
  · split
    · exact closeCurrent_settings s
    · rfl

theorem transportDone_settings (s : PubState) (i : Nat) (res : TransportResult) :
    (transportDone s i res).settings = s.settings := by
  unfold transportDone
  split
  · rfl
  · split <;> rfl

theorem step_settings (s : PubState) (e : Event) : (step s e).settings = s.settings := by
  cases e with
  | submit m => exact submit_settings s m
  | timer => exact timerTrip_settings s
  | transport i res => exact transportDone_settings s i res
  | tick d => rfl

theorem runFrom_settings (evs : List Event) :
    ∀ s : PubState, (runFrom s evs).settings = s.settings := by
  induction evs with
  | nil => intro s; rfl
  | cons e evs ih => intro s; rw [runFrom_cons, ih, step_settings]

theorem run_settings (cfg : BatchSettings) (evs : List Event) :
    (run cfg evs).settings = cfg := runFrom_settings evs (init cfg)

theorem Batch.close_state_ne_opened (b : Batch) :
    b.close.state ≠ BatchState.opened := by
  unfold Batch.close
  split
  · simp
  · assumption

theorem openBelowCap_init (cfg : BatchSettings) : OpenBelowCap (init cfg) := by
  constructor
  · intro b hb
    simp [init] at hb
  · intro b hb
    simp [init] at hb

theorem openBelowCap_submit (s : PubState) (m : Message) (h : OpenBelowCap s) :
    OpenBelowCap (submit s m).1 := by
  obtain ⟨h1, h2⟩ := h
  simp only [submit]
  split_ifs with hbig htrip
  · exact ⟨h1, h2⟩
  · constructor
    · intro b hb
      rcases List.mem_append.1 hb with hb | hb
      · exact h1 b hb
      · simp only [List.mem_singleton] at hb
        subst hb
        simp
    · intro b hb
      simp at hb
  · constructor
    · exact h1
    · intro b hb
      simp only [Option.some.injEq] at hb
      subst hb
      push_neg at htrip
      exact htrip.1

theorem openBelowCap_closeCurrent (s : PubState) (h : OpenBelowCap s) :
    OpenBelowCap (closeCurrent s) := by
  obtain ⟨h1, h2⟩ := h
  unfold closeCurrent
  split
  · exact ⟨h1, h2⟩
  · constructor
    · intro c hc
      rcases List.mem_append.1 hc with hc | hc
      · exact h1 c hc
      · simp only [List.mem_singleton] at hc
        subst hc
        exact Batch.close_state_ne_opened _
    · intro c hc
      simp at hc

theorem openBelowCap_timerTrip (s : PubState) (h : OpenBelowCap s) :
    OpenBelowCap (timerTrip s) := by
  unfold timerTrip
  split
  · exact h
  · split
    · exact openBelowCap_closeCurrent s h
    · exact h

theorem openBelowCap_transportDone (s : PubState) (i : Nat) (res : TransportResult)
    (h : OpenBelowCap s) : OpenBelowCap (transportDone s i res) := by
  obtain ⟨h1, h2⟩ := h
  unfold transportDone
  split
  · exact ⟨h1, h2⟩
  · split
    · constructor
      · intro c hc
        rcases List.mem_or_eq_of_mem_set hc with hc | hc
        · exact h1 c hc
        · subst hc
          cases res <;> simp [finalState]
      · exact h2
    · exact ⟨h1, h2⟩

theorem openBelowCap_step (s : PubState) (e : Event) (h : OpenBelowCap s) :
    OpenBelowCap (step s e) := by
  cases e with
  | submit m => exact openBelowCap_submit s m h
  | timer => exact openBelowCap_timerTrip s h
  | transport i res => exact openBelowCap_transportDone s i res h
  | tick d => exact h

theorem openBelowCap_runFrom (evs : List Event) :
    ∀ s : PubState, OpenBelowCap s → OpenBelowCap (runFrom s evs) := by
  induction evs with
  | nil => intro s h; exact h
  | cons e evs ih => intro s h; rw [runFrom_cons]; exact ih _ (openBelowCap_step s e h)

theorem openBelowCap_run (cfg : BatchSettings) (evs : List Event) :
    OpenBelowCap (run cfg evs) := openBelowCap_runFrom evs (init cfg) (openBelowCap_init cfg)

theorem runFrom_append (s : PubState) (l1 l2 : List Event) :
    runFrom s (l1 ++ l2) = runFrom (runFrom s l1) l2 := by
  simp [runFrom, List.foldl_append]

theorem mkReqs_map_msg : ∀ (msgs : List Message) (k : Nat),
    (mkReqs msgs k).map PublishRequest.msg = msgs
  | [], _ => rfl
  | m :: ms, k => by rw [mkReqs, List.map_cons, mkReqs_map_msg ms (k + 1)]

theorem submit_no_trip (s : PubState) (b : Batch) (m : Message)
    (hcur : s.current = some b)
    (hm : ¬ s.settings.maxBytes < m.size)
    (hns : ¬ (s.settings.maxBytes ≤ b.sizeTotal + m.size ∨
      s.settings.maxMessages ≤ b.requests.length + 1)) :
    submit s m =
      ({ s with current := some { b with
                  requests := b.requests ++ [⟨m, s.futures.length⟩],
                  sizeTotal := b.sizeTotal + m.size },
                futures := s.futures ++ [FutureState.pending] },
       SubmitResult.accepted s.futures.length) := by
  simp only [submit, hm, if_false, hcur]
  simp only [List.length_append, List.length_cons, List.length_nil, Nat.zero_add]
  rw [if_neg hns]

theorem submit_fresh_no_trip (s : PubState) (m : Message)
    (hcur : s.current = none)
    (hb : m.size < s.settings.maxBytes)
    (hc : 1 < s.settings.maxMessages) :
    submit s m =
      ({ s with current := some ⟨[⟨m, s.futures.length⟩], m.size, s.now, BatchState.opened⟩,
                futures := s.futures ++ [FutureState.pending] },
       SubmitResult.accepted s.futures.length) := by
  have hm : ¬ s.settings.maxBytes < m.size := by omega
  simp only [submit, hm, if_false, hcur]
  simp only [List.nil_append, List.length_append, List.length_cons, List.length_nil,
    Nat.zero_add]
  rw [if_neg (by omega)]

theorem submitAll_open (msgs : List Message) :
    ∀ (s : PubState) (b : Batch),
      s.current = some b →
      b.sizeTotal + (msgs.map Message.size).sum < s.settings.maxBytes →
      b.requests.length + msgs.length < s.settings.maxMessages →
      runFrom s (msgs.map Event.submit) =
        { s with current := some { b with
                   requests := b.requests ++ mkReqs msgs s.futures.length,
                   sizeTotal := b.sizeTotal + (msgs.map Message.size).sum },
                 futures := s.futures ++ List.replicate msgs.length FutureState.pending } := by
  induction msgs with
  | nil =>
    intro s b hcur _ _
    simp only [List.map_nil, runFrom_nil, mkReqs, List.append_nil, List.sum_nil,
      Nat.add_zero, List.length_nil, List.replicate_zero]
    rw [← hcur]
  | cons m ms ih =>
    intro s b hcur hsz hcnt
    rw [List.map_cons, List.sum_cons] at hsz
    rw [List.length_cons] at hcnt
    have hm' : ¬ s.settings.maxBytes < m.size := by omega
    have hns : ¬ (s.settings.maxBytes ≤ b.sizeTotal + m.size ∨
        s.settings.maxMessages ≤ b.requests.length + 1) := by omega
    rw [List.map_cons, runFrom_cons]
    have hstep : step s (Event.submit m) =
        { s with current := some { b with
                   requests := b.requests ++ [⟨m, s.futures.length⟩],
                   sizeTotal := b.sizeTotal + m.size },
                 futures := s.futures ++ [FutureState.pending] } := by
      show (submit s m).1 = _
      rw [submit_no_trip s b m hcur hm' hns]
    rw [hstep]
    rw [ih _ _ rfl (by dsimp only; omega)
      (by dsimp only; simp only [List.length_append, List.length_cons, List.length_nil]; omega)]
    simp [mkReqs, List.replicate_succ, List.append_assoc, Nat.add_assoc,
      List.length_append]

/-- C1: a sequence of submitted messages whose cumulative byte size never
reaches `max_bytes` and whose count never reaches `max_messages` before
`max_latency` elapses is flushed to the transport in exactly one batch, in
submission order: the i-th PublishRequest of the single closed batch is the
i-th submitted message. -/
theorem under_threshold_single_batch_in_order (cfg : BatchSettings) (msgs : List Message)
    (hne : msgs ≠ [])
    (hsz : (msgs.map Message.size).sum < cfg.maxBytes)
    (hcnt : msgs.length < cfg.maxMessages) :
    (run cfg (msgs.map Event.submit ++ [Event.tick cfg.maxLatency, Event.timer])).closed =
      [⟨mkReqs msgs 0, (msgs.map Message.size).sum, 0, BatchState.closing⟩] ∧
    (run cfg (msgs.map Event.submit ++ [Event.tick cfg.maxLatency, Event.timer])).current =
      none ∧
    (mkReqs msgs 0).map PublishRequest.msg = msgs := by
  cases msgs with
  | nil => exact absurd rfl hne
  | cons m ms =>
    rw [List.map_cons, List.sum_cons] at hsz
    rw [List.length_cons] at hcnt
    have h1 : step (init cfg) (Event.submit m) =
        ⟨cfg, some ⟨[⟨m, 0⟩], m.size, 0, BatchState.opened⟩, [], [FutureState.pending], 0⟩ := by
      show (submit (init cfg) m).1 = _
      rw [submit_fresh_no_trip (init cfg) m rfl (by dsimp [init]; omega) (by dsimp [init]; omega)]
      rfl
    have h2 := submitAll_open ms
      ⟨cfg, some ⟨[⟨m, 0⟩], m.size, 0, BatchState.opened⟩, [], [FutureState.pending], 0⟩
      ⟨[⟨m, 0⟩], m.size, 0, BatchState.opened⟩ rfl (by dsimp only; omega)
      (by simp only [List.length_cons, List.length_nil]; omega)
    have hrun : run cfg ((m :: ms).map Event.submit ++ [Event.tick cfg.maxLatency, Event.timer]) =
        ⟨cfg, none,
          [⟨mkReqs (m :: ms) 0, m.size + (ms.map Message.size).sum, 0, BatchState.closing⟩],
          List.replicate (ms.length + 1) FutureState.pending, 0 + cfg.maxLatency⟩ := by
      rw [run, List.map_cons, List.cons_append, runFrom_cons, h1, runFrom_append, h2]
      simp [runFrom, step, timerTrip, closeCurrent, Batch.close, mkReqs,
        List.replicate_succ]
    rw [hrun]
    refine ⟨?_, rfl, mkReqs_map_msg (m :: ms) 0⟩
    simp

theorem under_threshold_single_batch_in_order_w :
    (run ⟨10, 5, 1⟩ ([msgOfSize 2, msgOfSize 3].map Event.submit ++
        [Event.tick 1, Event.timer])).closed =
      [⟨mkReqs [msgOfSize 2, msgOfSize 3] 0,
        ([msgOfSize 2, msgOfSize 3].map Message.size).sum, 0, BatchState.closing⟩] ∧
    (run ⟨10, 5, 1⟩ ([msgOfSize 2, msgOfSize 3].map Event.submit ++
        [Event.tick 1, Event.timer])).current = none ∧
    (mkReqs [msgOfSize 2, msgOfSize 3] 0).map PublishRequest.msg =
      [msgOfSize 2, msgOfSize 3] :=
  under_threshold_single_batch_in_order ⟨10, 5, 1⟩ [msgOfSize 2, msgOfSize 3]
    (by decide) (by decide) (by decide)

/-- C2: a message that fits under `max_bytes` on its own but pushes an OPEN
batch's cumulative byte size from below `max_bytes` to at or above it is
appended to the batch and the batch transitions to CLOSING synchronously,
with the overflow-causing message included; the same synchronous transition
happens when the appended message makes the count reach `max_messages`. -/
theorem submit_threshold_closes_synchronously (s : PubState) (b : Batch) (m : Message)
    (hcur : s.current = some b)
    (hm : m.size ≤ s.settings.maxBytes)
    (hlt : b.sizeTotal < s.settings.maxBytes)
    (htrip : s.settings.maxBytes ≤ b.sizeTotal + m.size ∨
      s.settings.maxMessages ≤ b.requests.length + 1) :
    (submit s m).1.current = none ∧
    (submit s m).1.closed = s.closed ++
      [⟨b.requests ++ [⟨m, s.futures.length⟩], b.sizeTotal + m.size, b.createdAt,
        BatchState.closing⟩] := by
  have hnot : ¬ s.settings.maxBytes < m.size := Nat.not_lt.2 hm
  simp only [submit, hnot, if_false, hcur]
  simp only [List.length_append, List.length_cons, List.length_nil, Nat.zero_add]
  rw [if_pos htrip]
  exact ⟨rfl, rfl⟩

theorem submit_threshold_closes_synchronously_w :
    (submit (run ⟨10, 5, 1⟩ [Event.submit (msgOfSize 6)]) (msgOfSize 6)).1.current = none ∧
    (submit (run ⟨10, 5, 1⟩ [Event.submit (msgOfSize 6)]) (msgOfSize 6)).1.closed =
      [⟨[⟨msgOfSize 6, 0⟩, ⟨msgOfSize 6, 1⟩], 12, 0, BatchState.closing⟩] := by
  have h := submit_threshold_closes_synchronously
    (run ⟨10, 5, 1⟩ [Event.submit (msgOfSize 6)])
    ⟨[⟨msgOfSize 6, 0⟩], 6, 0, BatchState.opened⟩ (msgOfSize 6)
    (by decide) (by decide) (by decide) (Or.inl (by decide))
  refine ⟨h.1, ?_⟩
  rw [h.2]
  decide

/-- C3, as stated, is false: the total byte size of a batch can exceed
`max_bytes`, because the message that trips the size threshold is appended
to the batch before the threshold check closes it.  With `max_bytes = 10`,
two submissions of 6 bytes each produce a (closed) batch of total size 12. -/
theorem closed_batch_size_can_exceed_max_bytes :
    ((run ⟨10, 5, 1⟩ [Event.submit (msgOfSize 6), Event.submit (msgOfSize 6)]).closed.map
      Batch.sizeTotal = [12]) ∧
    (run ⟨10, 5, 1⟩ [Event.submit (msgOfSize 6),
      Event.submit (msgOfSize 6)]).settings.maxBytes = 10 ∧
    ¬ (12 ≤ 10) := by decide

/-- C3 (amended): in every reachable state, every batch that is still OPEN
has total byte size strictly below `max_bytes`; only a batch already
transitioned out of OPEN (by the very operation that made it reach the cap)
can carry a total at or above `max_bytes`. -/
theorem open_batch_size_below_max_bytes (cfg : BatchSettings) (evs : List Event)
    (b : Batch) (hb : b ∈ allBatches (run cfg evs))
    (hopen : b.state = BatchState.opened) :
    b.sizeTotal < cfg.maxBytes := by
  have hinv := openBelowCap_run cfg evs
  have hset := run_settings cfg evs
  rcases List.mem_append.1 hb with hc | hc
  · exact absurd hopen (hinv.1 b hc)
  · have : (run cfg evs).current = some b := by
      cases hcur : (run cfg evs).current with
      | none => rw [hcur] at hc; simp [Option.toList] at hc
      | some c =>
        rw [hcur] at hc
        simp only [Option.toList_some, List.mem_singleton] at hc
        rw [hc]
    rw [← hset]
    exact hinv.2 b this

theorem open_batch_size_below_max_bytes_w : (3 : Nat) < 10 :=
  open_batch_size_below_max_bytes ⟨10, 5, 1⟩ [Event.submit (msgOfSize 3)]
    ⟨[⟨msgOfSize 3, 0⟩], 3, 0, BatchState.opened⟩ (by decide) rfl

/-- C5: a message whose byte size alone exceeds `max_bytes` is rejected
immediately with `MessageTooLarge` before entering any batch: no batch's
contents or size change, the error is returned synchronously to the caller
of `submit`, and the message's future is resolved with that error. -/
theorem submit_rejects_oversized_message (s : PubState) (m : Message)
    (h : s.settings.maxBytes < m.size) :
    (submit s m).1.current = s.current ∧
    (submit s m).1.closed = s.closed ∧
    (submit s m).2 = SubmitResult.tooLarge s.futures.length ∧
    (submit s m).1.futures =
      s.futures ++ [FutureState.resolvedErr PubError.messageTooLarge] := by
  simp [submit, h]

theorem submit_rejects_oversized_message_w :
    (submit (init ⟨10, 5, 1⟩) (msgOfSize 11)).1.current = (init ⟨10, 5, 1⟩).current ∧
    (submit (init ⟨10, 5, 1⟩) (msgOfSize 11)).1.closed = (init ⟨10, 5, 1⟩).closed ∧
    (submit (init ⟨10, 5, 1⟩) (msgOfSize 11)).2 =
      SubmitResult.tooLarge (init ⟨10, 5, 1⟩).futures.length ∧
    (submit (init ⟨10, 5, 1⟩) (msgOfSize 11)).1.futures =
      (init ⟨10, 5, 1⟩).futures ++ [FutureState.resolvedErr PubError.messageTooLarge] :=
  submit_rejects_oversized_message (init ⟨10, 5, 1⟩) (msgOfSize 11) (by decide)

/-- C8: a batch below both the count and the size thresholds is still closed
when its age reaches `max_latency` (the timer fires at exactly
`max_latency`), and closing a batch that is already CLOSING or SENT is a
no-op. -/
theorem timer_flush_at_max_latency_and_idempotent_close (s : PubState) (b : Batch)
    (hcur : s.current = some b) (hopen : b.state = BatchState.opened)
    (hsz : b.sizeTotal < s.settings.maxBytes)
    (hcnt : b.requests.length < s.settings.maxMessages)
    (hage : s.now = b.createdAt + s.settings.maxLatency) :
    (timerTrip s).current = none ∧
    (timerTrip s).closed = s.closed ++ [{ b with state := BatchState.closing }] ∧
    (∀ c : Batch, c.state = BatchState.closing ∨ c.state = BatchState.sent →
      Batch.close c = c) := by
  have hclose : Batch.close b = { b with state := BatchState.closing } := by
    simp [Batch.close, hopen]
  have hguard : b.createdAt + s.settings.maxLatency ≤ s.now := le_of_eq hage.symm
  refine ⟨?_, ?_, ?_⟩
  · simp [timerTrip, hcur, hguard, closeCurrent]
  · simp [timerTrip, hcur, hguard, closeCurrent, hclose]
  · intro c hc
    rcases hc with h | h <;> simp [Batch.close, h]

theorem timer_flush_at_max_latency_and_idempotent_close_w :
    (timerTrip (run ⟨10, 5, 1⟩ [Event.submit (msgOfSize 3), Event.tick 1])).current = none ∧
    (timerTrip (run ⟨10, 5, 1⟩ [Event.submit (msgOfSize 3), Event.tick 1])).closed =
      [⟨[⟨msgOfSize 3, 0⟩], 3, 0, BatchState.closing⟩] ∧
    Batch.close ⟨[], 0, 0, BatchState.closing⟩ = ⟨[], 0, 0, BatchState.closing⟩ := by
  have h := timer_flush_at_max_latency_and_idempotent_close
    (run ⟨10, 5, 1⟩ [Event.submit (msgOfSize 3), Event.tick 1])
    ⟨[⟨msgOfSize 3, 0⟩], 3, 0, BatchState.opened⟩
    (by decide) rfl (by decide) (by decide) (by decide)
  refine ⟨h.1, ?_, h.2.2 _ (Or.inl rfl)⟩
  rw [h.2.1]
  decide

theorem get?_append_single {α : Type} (l : List α) (v : α) (q : Nat) :
    (l ++ [v]).get? q =
      if q < l.length then l.get? q else if q = l.length then some v else none := by
  split_ifs with h1 h2
  · exact List.get?_append h1
  · subst h2
    exact List.get?_concat_length l v
  · apply List.get?_len_le
    simp
    omega

theorem get?_set_not_pending (fs : List FutureState) (i q : Nat) (v : FutureState)
    (hv : v ≠ FutureState.pending)
    (h : fs.get? q ≠ some FutureState.pending) :
    (fs.set i v).get? q ≠ some FutureState.pending := by
  rw [List.get?_set]
  split
  · cases hfs : fs.get? q <;> simp [hv]
  · exact h

theorem get?_set_self_not_pending (fs : List FutureState) (i : Nat) (v : FutureState)
    (hv : v ≠ FutureState.pending) :
    (fs.set i v).get? i ≠ some FutureState.pending := by
  rw [List.get?_set_eq]
  cases fs.get? i <;> simp [hv]

theorem setErr_length (e : String) : ∀ (rs : List PublishRequest) (fs : List FutureState),
    (setErr fs e rs).length = fs.length
  | [], _ => rfl
  | r :: rs, fs => by rw [setErr, setErr_length e rs, List.length_set]

theorem setIds_length : ∀ (rs : List PublishRequest) (ids : List String)
    (fs : List FutureState), (setIds fs rs ids).length = fs.length
  | [], _, _ => rfl
  | _ :: _, [], _ => rfl
  | r :: rs, id :: ids, fs => by rw [setIds, setIds_length rs ids, List.length_set]

theorem setErr_get_notin (e : String) : ∀ (rs : List PublishRequest)
    (fs : List FutureState) (q : Nat),
    (∀ r ∈ rs, r.seq ≠ q) → (setErr fs e rs).get? q = fs.get? q
  | [], _, _, _ => rfl
  | r :: rs, fs, q, h => by
    rw [setErr, setErr_get_notin e rs _ q (fun r' hr' => h r' (List.mem_cons_of_mem r hr')),
      List.get?_set_ne _ _ (h r (List.mem_cons_self r rs))]

theorem setIds_get_notin : ∀ (rs : List PublishRequest) (ids : List String)
    (fs : List FutureState) (q : Nat),
    (∀ r ∈ rs, r.seq ≠ q) → (setIds fs rs ids).get? q = fs.get? q
  | [], _, _, _, _ => rfl
  | _ :: _, [], _, _, _ => rfl
  | r :: rs, id :: ids, fs, q, h => by
    rw [setIds, setIds_get_notin rs ids _ q (fun r' hr' => h r' (List.mem_cons_of_mem r hr')),
      List.get?_set_ne _ _ (h r (List.mem_cons_self r rs))]

theorem setErr_not_pending_preserved (e : String) : ∀ (rs : List PublishRequest)
    (fs : List FutureState) (q : Nat),
    fs.get? q ≠ some FutureState.pending →
    (setErr fs e rs).get? q ≠ some FutureState.pending
  | [], _, _, h => h
  | r :: rs, fs, q, h => by
    rw [setErr]
    exact setErr_not_pending_preserved e rs _ q
      (get?_set_not_pending fs r.seq q _ (by simp) h)

theorem setIds_not_pending_preserved : ∀ (rs : List PublishRequest) (ids : List String)
    (fs : List FutureState) (q : Nat),
    fs.get? q ≠ some FutureState.pending →
    (setIds fs rs ids).get? q ≠ some FutureState.pending
  | [], _, _, _, h => h
  | _ :: _, [], _, _, h => h
  | r :: rs, id :: ids, fs, q, h => by
    rw [setIds]
    exact setIds_not_pending_preserved rs ids _ q
      (get?_set_not_pending fs r.seq q _ (by simp) h)

theorem setErr_not_pending_of_mem (e : String) : ∀ (rs : List PublishRequest)
    (fs : List FutureState) (q : Nat),
    q ∈ rs.map PublishRequest.seq →
    (setErr fs e rs).get? q ≠ some FutureState.pending
  | [], _, q, hq => by simp at hq
  | r :: rs, fs, q, hq => by
    rw [setErr]
    have hq' : q ∈ r.seq :: rs.map PublishRequest.seq := by
      simpa only [List.map_cons] using hq
    rcases List.mem_cons.1 hq' with h | h
    · subst h
      exact setErr_not_pending_preserved e rs _ _
        (get?_set_self_not_pending fs r.seq _ (by simp))
    · exact setErr_not_pending_of_mem e rs _ q h

theorem setIds_not_pending_of_mem : ∀ (rs : List PublishRequest) (ids : List String)
    (fs : List FutureState) (q : Nat),
    ids.length = rs.length →
    q ∈ rs.map PublishRequest.seq →
    (setIds fs rs ids).get? q ≠ some FutureState.pending
  | [], _, _, q, _, hq => by simp at hq
  | _ :: _, [], _, _, hlen, _ => by simp at hlen
  | r :: rs, id :: ids, fs, q, hlen, hq => by
    rw [setIds]
    have hq' : q ∈ r.seq :: rs.map PublishRequest.seq := by
      simpa only [List.map_cons] using hq
    rcases List.mem_cons.1 hq' with h | h
    · subst h
      exact setIds_not_pending_preserved rs ids _ _
        (get?_set_self_not_pending fs r.seq _ (by simp))
    · exact setIds_not_pending_of_mem rs ids _ q (by simpa using hlen) h

theorem setErr_get_of_mem (e : String) : ∀ (rs : List PublishRequest)
    (fs : List FutureState) (r : PublishRequest),
    (rs.map PublishRequest.seq).Nodup →
    (∀ r' ∈ rs, r'.seq < fs.length) →
    r ∈ rs →
    (setErr fs e rs).get? r.seq =
      some (FutureState.resolvedErr (PubError.transportError e))
  | [], _, _, _, _, hr => by simp at hr
  | r0 :: rs, fs, r, hnd, hbound, hr => by
    rw [setErr]
    rcases List.mem_cons.1 hr with h | h
    · subst h
      have hnotin : r.seq ∉ rs.map PublishRequest.seq :=
        (List.nodup_cons.1 (by simpa using hnd)).1
      rw [setErr_get_notin e rs _ _
        (fun r' hr' hEq =>
          hnotin (by rw [← hEq]; exact List.mem_map_of_mem PublishRequest.seq hr'))]
      exact List.get?_set_eq_of_lt _ (hbound r (List.mem_cons_self r rs))
    · exact setErr_get_of_mem e rs _ r (List.nodup_cons.1 (by simpa using hnd)).2
        (fun r' hr' => by rw [List.length_set]; exact hbound r' (List.mem_cons_of_mem r0 hr')) h

theorem setIds_get_pos : ∀ (rs : List PublishRequest) (ids : List String)
    (fs : List FutureState),
    (rs.map PublishRequest.seq).Nodup →
    (∀ r ∈ rs, r.seq < fs.length) →
    ∀ (j : Nat) (hj : j < rs.length) (hj' : j < ids.length),
      (setIds fs rs ids).get? (rs.get ⟨j, hj⟩).seq =
        some (FutureState.resolvedId (ids.get ⟨j, hj'⟩))
  | [], _, _, _, _, j, hj, _ => absurd hj (by simp)
  | _ :: _, [], _, _, _, j, _, hj' => absurd hj' (by simp)
  | r :: rs, id :: ids, fs, hnd, hbound, 0, hj, hj' => by
    show (setIds fs (r :: rs) (id :: ids)).get? r.seq = some (FutureState.resolvedId id)
    rw [setIds]
    have hnotin : r.seq ∉ rs.map PublishRequest.seq :=
      (List.nodup_cons.1 (by simpa using hnd)).1
    rw [setIds_get_notin rs ids _ _
      (fun r' hr' hEq =>
        hnotin (by rw [← hEq]; exact List.mem_map_of_mem PublishRequest.seq hr'))]
    exact List.get?_set_eq_of_lt _ (hbound r (List.mem_cons_self r rs))
  | r :: rs, id :: ids, fs, hnd, hbound, j + 1, hj, hj' => by
    rw [setIds]
    exact setIds_get_pos rs ids _ (List.nodup_cons.1 (by simpa using hnd)).2
      (fun r' hr' => by rw [List.length_set]; exact hbound r' (List.mem_cons_of_mem r hr'))
      j (Nat.lt_of_succ_lt_succ hj) (Nat.lt_of_succ_lt_succ hj')

theorem resolveBatch_length (fs : List FutureState) (b : Batch) (res : TransportResult) :
    (resolveBatch fs b res).length = fs.length := by
  cases res with
  | ok ids => exact setIds_length b.requests ids fs
  | err e => exact setErr_length e b.requests fs

theorem resolveBatch_get_notin (fs : List FutureState) (b : Batch) (res : TransportResult)
    (q : Nat) (h : q ∉ batchSeqs b) :
    (resolveBatch fs b res).get? q = fs.get? q := by
  have h' : ∀ r ∈ b.requests, r.seq ≠ q := fun r hr hEq =>
    h (by rw [← hEq]; exact List.mem_map_of_mem PublishRequest.seq hr)
  cases res with
  | ok ids => exact setIds_get_notin b.requests ids fs q h'
  | err e => exact setErr_get_notin e b.requests fs q h'

theorem resolveBatch_not_pending_preserved (fs : List FutureState) (b : Batch)
    (res : TransportResult) (q : Nat) (h : fs.get? q ≠ some FutureState.pending) :
    (resolveBatch fs b res).get? q ≠ some FutureState.pending := by
  cases res with
  | ok ids => exact setIds_not_pending_preserved b.requests ids fs q h
  | err e => exact setErr_not_pending_preserved e b.requests fs q h

theorem resolveBatch_not_pending_of_mem (fs : List FutureState) (b : Batch)
    (res : TransportResult) (q : Nat) (hval : validResult res b) (hq : q ∈ batchSeqs b) :
    (resolveBatch fs b res).get? q ≠ some FutureState.pending := by
  cases res with
  | ok ids => exact setIds_not_pending_of_mem b.requests ids fs q hval hq
  | err e => exact setErr_not_pending_of_mem e b.requests fs q hq

theorem disjoint_of_nodup_flatten {α : Type} : ∀ (L : List (List α)) (i j : Nat)
    (x y : List α), L.flatten.Nodup → L.get? i = some x → L.get? j = some y →
    i ≠ j → ∀ q, q ∈ x → q ∈ y → False
  | [], i, _, _, _, _, hx, _, _, _, _, _ => by simp at hx
  | z :: L, 0, 0, _, _, _, _, _, hij, _, _, _ => absurd rfl hij
  | z :: L, 0, j + 1, x, y, hnd, hx, hy, _, q, hqx, hqy => by
    injection hx with hx
    subst hx
    have hnd' := List.nodup_append.1 (by simpa only [List.flatten_cons] using hnd)
    exact hnd'.2.2 hqx (List.mem_flatten.2 ⟨y, List.get?_mem hy, hqy⟩)
  | z :: L, i + 1, 0, x, y, hnd, hx, hy, _, q, hqx, hqy => by
    injection hy with hy
    subst hy
    have hnd' := List.nodup_append.1 (by simpa only [List.flatten_cons] using hnd)
    exact hnd'.2.2 hqy (List.mem_flatten.2 ⟨x, List.get?_mem hx, hqx⟩)
  | z :: L, i + 1, j + 1, x, y, hnd, hx, hy, hij, q, hqx, hqy => by
    have hnd' := List.nodup_append.1 (by simpa only [List.flatten_cons] using hnd)
    exact disjoint_of_nodup_flatten L i j x y hnd'.2.1 hx hy
      (fun hc => hij (by rw [hc])) q hqx hqy

theorem map_batchSeqs_set : ∀ (l : List Batch) (i : Nat) (b b' : Batch),
    l.get? i = some b → batchSeqs b' = batchSeqs b →
    (l.set i b').map batchSeqs = l.map batchSeqs
  | [], _, _, _, h, _ => by simp at h
  | c :: l, 0, b, b', h, hb => by
    injection h with h
    subst h
    simp [List.set, hb]
  | c :: l, i + 1, b, b', h, hb => by
    simp only [List.set, List.map_cons, map_batchSeqs_set l i b b' h hb]

theorem mem_allBatches (s : PubState) (b : Batch) :
    b ∈ allBatches s ↔ b ∈ s.closed ∨ s.current = some b := by
  unfold allBatches
  cases s.current <;> simp [Option.toList, eq_comm]

theorem mem_allSeqs (s : PubState) (b : Batch) (r : PublishRequest)
    (hb : b ∈ allBatches s) (hr : r ∈ b.requests) : r.seq ∈ allSeqs s := by
  unfold allSeqs
  exact List.mem_flatten.2 ⟨batchSeqs b, List.mem_map_of_mem batchSeqs hb,
    List.mem_map_of_mem PublishRequest.seq hr⟩

theorem allBatches_get_closed (s : PubState) (i : Nat) (b : Batch)
    (h : s.closed.get? i = some b) : (allBatches s).get? i = some b := by
  have hlt : i < s.closed.length := by
    rcases List.get?_eq_some.1 h with ⟨hlt, _⟩
    exact hlt
  unfold allBatches
  rw [List.get?_append hlt]
  exact h

theorem allBatches_get_current (s : PubState) (b : Batch)
    (h : s.current = some b) : (allBatches s).get? s.closed.length = some b := by
  unfold allBatches
  rw [List.get?_append_right (le_refl _), h]
  simp

theorem seq_owner_unique (s : PubState) (hnd : (allSeqs s).Nodup)
    (i j : Nat) (b b2 : Batch)
    (hi : (allBatches s).get? i = some b) (hj : (allBatches s).get? j = some b2)
    (hij : i ≠ j) (q : Nat) (hq : q ∈ batchSeqs b) (hq2 : q ∈ batchSeqs b2) : False := by
  apply disjoint_of_nodup_flatten ((allBatches s).map batchSeqs) i j
    (batchSeqs b) (batchSeqs b2) hnd _ _ hij q hq hq2
  · rw [List.get?_map, hi]
    rfl
  · rw [List.get?_map, hj]
    rfl

theorem Batch.close_requests (b : Batch) : b.close.requests = b.requests := by
  unfold Batch.close
  split <;> rfl

theorem Batch.close_live (b : Batch)
    (h : b.close.state = BatchState.opened ∨ b.close.state = BatchState.closing) :
    b.state = BatchState.opened ∨ b.state = BatchState.closing := by
  unfold Batch.close at h
  by_cases hb : b.state = BatchState.opened
  · exact Or.inl hb
  · rw [if_neg hb] at h
    exact h

theorem Batch.close_live_of_live (b : Batch)
    (h : b.state = BatchState.opened ∨ b.state = BatchState.closing) :
    b.close.state = BatchState.opened ∨ b.close.state = BatchState.closing := by
  unfold Batch.close
  split
  · exact Or.inr rfl
  · exact h

theorem Inv_init (cfg : BatchSettings) : Inv (init cfg) := by
  refine ⟨?_, ?_, ?_, ?_, ?_, ?_⟩ <;> simp [init, allBatches, allSeqs]

theorem Inv_append_future (s : PubState) (v : FutureState)
    (hv : v ≠ FutureState.pending) (h : Inv s) :
    Inv { s with futures := s.futures ++ [v] } := by
  refine ⟨h.closedNotOpen, h.curOpen, h.seqNodup, ?_, ?_, ?_⟩
  · intro q hq
    have := h.seqBound q hq
    simp only [List.length_append, List.length_cons, List.length_nil]
    omega
  · intro b hb hlive r hr
    have hq := h.seqBound r.seq (mem_allSeqs s b r hb hr)
    show (s.futures ++ [v]).get? r.seq = some FutureState.pending
    rw [List.get?_append hq]
    exact h.livePending b hb hlive r hr
  · intro q hq
    rw [show ({ s with futures := s.futures ++ [v] } : PubState).futures
      = s.futures ++ [v] from rfl, get?_append_single] at hq
    split_ifs at hq with h1 h2
    · exact h.pendingLive q hq
    · exact absurd (Option.some.inj hq) hv

theorem allSeqs_some (s : PubState) (b : Batch) (h : s.current = some b) :
    allSeqs s = (s.closed.map batchSeqs).flatten ++ batchSeqs b := by
  simp [allSeqs, allBatches, h]

theorem allSeqs_none (s : PubState) (h : s.current = none) :
    allSeqs s = (s.closed.map batchSeqs).flatten := by
  simp [allSeqs, allBatches, h]

theorem Inv_closeCurrent (s : PubState) (h : Inv s) : Inv (closeCurrent s) := by
  cases hcur : s.current with
  | none =>
    unfold closeCurrent
    rw [hcur]
    exact h
  | some b =>
    unfold closeCurrent
    rw [hcur]
    have hmem : b ∈ allBatches s := (mem_allBatches s b).2 (Or.inr hcur)
    have hseqs : allSeqs { s with current := none, closed := s.closed ++ [b.close] } =
        allSeqs s := by
      rw [allSeqs_none _ rfl, allSeqs_some s b hcur]
      simp [batchSeqs, Batch.close_requests]
    refine ⟨?_, ?_, ?_, ?_, ?_, ?_⟩
    · intro c hc
      rcases List.mem_append.1 hc with hc | hc
      · exact h.closedNotOpen c hc
      · rw [List.mem_singleton] at hc
        subst hc
        exact Batch.close_state_ne_opened b
    · intro c hc
      simp at hc
    · rw [show (allSeqs { s with current := none, closed := s.closed ++ [b.close] }).Nodup
        = (allSeqs s).Nodup from by rw [hseqs]]
      exact h.seqNodup
    · intro q hq
      rw [hseqs] at hq
      exact h.seqBound q hq
    · intro c hc hlive r hr
      have hc' : c ∈ s.closed ++ [b.close] := by
        rcases (mem_allBatches _ c).1 hc with hc2 | hc2
        · exact hc2
        · simp at hc2
      rcases List.mem_append.1 hc' with hc2 | hc2
      · exact h.livePending c ((mem_allBatches s c).2 (Or.inl hc2)) hlive r hr
      · rw [List.mem_singleton] at hc2
        subst hc2
        exact h.livePending b hmem (Batch.close_live b hlive) r
          (by rwa [Batch.close_requests] at hr)
    · intro q hq
      rcases h.pendingLive q hq with ⟨c, hc, hlive, r, hr, hseq⟩
      rcases (mem_allBatches s c).1 hc with hcc | hcc
      · exact ⟨c, (mem_allBatches _ c).2 (Or.inl (List.mem_append_left _ hcc)),
          hlive, r, hr, hseq⟩
      · rw [hcur] at hcc
        injection hcc with hcc
        subst hcc
        refine ⟨b.close, (mem_allBatches _ _).2
          (Or.inl (List.mem_append_right _ (List.mem_singleton.2 rfl))),
          Batch.close_live_of_live b hlive, r, ?_, hseq⟩
        rwa [Batch.close_requests]

theorem Inv_timerTrip (s : PubState) (h : Inv s) : Inv (timerTrip s) := by
  unfold timerTrip
  split
  · exact h
  · split
    · exact Inv_closeCurrent s h
    · exact h

theorem Inv_with_fresh (s : PubState) (hcur : s.current = none) (h : Inv s) :
    Inv { s with current := some ⟨[], 0, s.now, BatchState.opened⟩ } := by
  have hseq : allSeqs { s with current := some ⟨[], 0, s.now, BatchState.opened⟩ } =
      allSeqs s := by
    rw [allSeqs_some _ _ rfl, allSeqs_none s hcur]
    simp [batchSeqs]
  refine ⟨h.closedNotOpen, ?_, ?_, ?_, ?_, ?_⟩
  · intro c hc
    injection hc with hc
    rw [← hc]
  · rw [show (allSeqs { s with current := some ⟨[], 0, s.now, BatchState.opened⟩ }).Nodup
      = (allSeqs s).Nodup from by rw [hseq]]
    exact h.seqNodup
  · intro q hq
    rw [hseq] at hq
    exact h.seqBound q hq
  · intro c hc hlive r hr
    rcases (mem_allBatches _ c).1 hc with hcc | hcc
    · exact h.livePending c ((mem_allBatches s c).2 (Or.inl hcc)) hlive r hr
    · injection hcc with hcc
      rw [← hcc] at hr
      simp at hr
  · intro q hq
    rcases h.pendingLive q hq with ⟨c, hc, hlive, r, hr, hseq'⟩
    rcases (mem_allBatches s c).1 hc with hcc | hcc
    · exact ⟨c, (mem_allBatches _ c).2 (Or.inl hcc), hlive, r, hr, hseq'⟩
    · rw [hcur] at hcc
      exact absurd hcc (by simp)

theorem submit_none_eq (s : PubState) (m : Message) (hcur : s.current = none)
    (hbig : ¬ s.settings.maxBytes < m.size) :
    submit s m = submit { s with current := some ⟨[], 0, s.now, BatchState.opened⟩ } m := by
  simp only [submit, hcur, hbig, if_false]

theorem Inv_midState (s : PubState) (b : Batch) (m : Message)
    (hcur : s.current = some b) (h : Inv s) : Inv (midState s b m) := by
  have hopen : b.state = BatchState.opened := h.curOpen b hcur
  have hmem : b ∈ allBatches s := (mem_allBatches s b).2 (Or.inr hcur)
  have hfresh : s.futures.length ∉ allSeqs s := fun hc =>
    absurd (h.seqBound _ hc) (by omega)
  have hfut : (midState s b m).futures = s.futures ++ [FutureState.pending] := rfl
  have hseq : allSeqs (midState s b m) = allSeqs s ++ [s.futures.length] := by
    rw [allSeqs_some (midState s b m) _ rfl, allSeqs_some s b hcur]
    simp [batchSeqs, midState, List.append_assoc]
  refine ⟨h.closedNotOpen, ?_, ?_, ?_, ?_, ?_⟩
  · intro c hc
    rw [← Option.some.inj hc]
    exact hopen
  · rw [hseq]
    refine List.nodup_append.2 ⟨h.seqNodup, by simp, ?_⟩
    intro a ha hb
    rw [List.mem_singleton] at hb
    subst hb
    exact hfresh ha
  · intro q hq
    rw [hseq] at hq
    rw [hfut, List.length_append]
    rcases List.mem_append.1 hq with hq | hq
    · have := h.seqBound q hq
      simp only [List.length_cons, List.length_nil]
      omega
    · rw [List.mem_singleton] at hq
      subst hq
      simp
  · intro c hc hlive r hr
    rw [hfut]
    rcases (mem_allBatches _ c).1 hc with hcc | hcc
    · have hb2 : c ∈ allBatches s := (mem_allBatches s c).2 (Or.inl hcc)
      rw [List.get?_append (h.seqBound r.seq (mem_allSeqs s c r hb2 hr))]
      exact h.livePending c hb2 hlive r hr
    · rw [← Option.some.inj hcc] at hr
      rcases List.mem_append.1 hr with hr2 | hr2
      · rw [List.get?_append (h.seqBound r.seq (mem_allSeqs s b r hmem hr2))]
        exact h.livePending b hmem (Or.inl hopen) r hr2
      · rw [List.mem_singleton] at hr2
        subst hr2
        exact List.get?_concat_length s.futures FutureState.pending
  · intro q hq
    rw [hfut, get?_append_single] at hq
    split_ifs at hq with h1 h2
    · rcases h.pendingLive q hq with ⟨c, hc, hlive, r, hr, hseq2⟩
      rcases (mem_allBatches s c).1 hc with hcc | hcc
      · exact ⟨c, (mem_allBatches _ c).2 (Or.inl hcc), hlive, r, hr, hseq2⟩
      · rw [hcur] at hcc
        refine ⟨{ b with
            requests := b.requests ++ [⟨m, s.futures.length⟩],
            sizeTotal := b.sizeTotal + m.size },
          (mem_allBatches _ _).2 (Or.inr rfl), Or.inl hopen, r, ?_, hseq2⟩
        rw [← Option.some.inj hcc] at hr
        exact List.mem_append_left _ hr
    · subst h2
      exact ⟨{ b with
          requests := b.requests ++ [⟨m, s.futures.length⟩],
          sizeTotal := b.sizeTotal + m.size },
        (mem_allBatches _ _).2 (Or.inr rfl), Or.inl hopen, ⟨m, s.futures.length⟩,
        List.mem_append_right _ (List.mem_singleton.2 rfl), rfl⟩

theorem Inv_submit_some (s : PubState) (b : Batch) (m : Message)
    (hcur : s.current = some b) (hbig : ¬ s.settings.maxBytes < m.size)
    (h : Inv s) : Inv (submit s m).1 := by
  have hopen : b.state = BatchState.opened := h.curOpen b hcur
  have hMid := Inv_midState s b m hcur h
  simp only [submit, hbig, if_false, hcur]
  split_ifs with htrip
  · have heq : ({ s with
        current := none,
        closed := s.closed ++ [{ b with
          requests := b.requests ++ [⟨m, s.futures.length⟩],
          sizeTotal := b.sizeTotal + m.size, state := BatchState.closing }],
        futures := s.futures ++ [FutureState.pending] } : PubState) =
        closeCurrent (midState s b m) := by
      unfold closeCurrent midState
      dsimp only
      unfold Batch.close
      rw [if_pos (show b.state = BatchState.opened from hopen)]
    rw [heq]
    exact Inv_closeCurrent _ hMid
  · exact hMid

theorem Inv_submit (s : PubState) (m : Message) (h : Inv s) : Inv (submit s m).1 := by
  by_cases hbig : s.settings.maxBytes < m.size
  · simp only [submit, hbig, if_true]
    exact Inv_append_future s _ (by simp) h
  · cases hcur : s.current with
    | some b => exact Inv_submit_some s b m hcur hbig h
    | none =>
      rw [submit_none_eq s m hcur hbig]
      exact Inv_submit_some _ ⟨[], 0, s.now, BatchState.opened⟩ m rfl hbig
        (Inv_with_fresh s hcur h)

theorem Inv_transportDone (s : PubState) (i : Nat) (res : TransportResult)
    (h : Inv s) : Inv (transportDone s i res) := by
  unfold transportDone
  split
  · exact h
  · rename_i b hb
    split_ifs with hcond
    · obtain ⟨hcl, hval⟩ := hcond
      have hilt : i < s.closed.length := by
        rcases List.get?_eq_some.1 hb with ⟨hlt, _⟩
        exact hlt
      have hib : (allBatches s).get? i = some b := allBatches_get_closed s i b hb
      have hseqs : allSeqs { s with
          closed := s.closed.set i { b with state := finalState res },
          futures := resolveBatch s.futures b res } = allSeqs s := by
        unfold allSeqs allBatches
        dsimp only
        rw [List.map_append, List.map_append,
          map_batchSeqs_set s.closed i b { b with state := finalState res } hb rfl]
      refine ⟨?_, h.curOpen, ?_, ?_, ?_, ?_⟩
      · intro c hc
        rcases List.mem_or_eq_of_mem_set hc with hc2 | hc2
        · exact h.closedNotOpen c hc2
        · subst hc2
          cases res <;> simp [finalState]
      · rw [show (allSeqs { s with
            closed := s.closed.set i { b with state := finalState res },
            futures := resolveBatch s.futures b res }).Nodup = (allSeqs s).Nodup
          from by rw [hseqs]]
        exact h.seqNodup
      · intro q hq
        rw [hseqs] at hq
        show q < (resolveBatch s.futures b res).length
        rw [resolveBatch_length]
        exact h.seqBound q hq
      · intro c hc hlive r hr
        show (resolveBatch s.futures b res).get? r.seq = some FutureState.pending
        rcases (mem_allBatches _ c).1 hc with hcc | hcc
        · obtain ⟨j, hj⟩ := List.mem_iff_get?.1 hcc
          by_cases hij : j = i
          · subst hij
            rw [List.get?_set_eq_of_lt _ hilt] at hj
            rw [← Option.some.inj hj] at hlive
            rcases hlive with h2 | h2 <;> (cases res <;> simp [finalState] at h2)
          · have hj' : s.closed.get? j = some c := by
              rwa [List.get?_set_ne _ _ (fun hc2 => hij hc2.symm)] at hj
            have hc2 : c ∈ allBatches s := (mem_allBatches s c).2 (Or.inl (List.get?_mem hj'))
            have hnotin : r.seq ∉ batchSeqs b := fun hin =>
              seq_owner_unique s h.seqNodup i j b c hib (allBatches_get_closed s j c hj')
                (fun hc3 => hij hc3.symm) r.seq hin
                (List.mem_map_of_mem PublishRequest.seq hr)
            rw [resolveBatch_get_notin _ _ _ _ hnotin]
            exact h.livePending c hc2 hlive r hr
        · have hc2 : c ∈ allBatches s := (mem_allBatches s c).2 (Or.inr hcc)
          have hnotin : r.seq ∉ batchSeqs b := fun hin =>
            seq_owner_unique s h.seqNodup i s.closed.length b c hib
              (allBatches_get_current s c hcc) (by omega) r.seq hin
              (List.mem_map_of_mem PublishRequest.seq hr)
          rw [resolveBatch_get_notin _ _ _ _ hnotin]
          exact h.livePending c hc2 hlive r hr
      · intro q hq
        have hnotin : q ∉ batchSeqs b := fun hin =>
          resolveBatch_not_pending_of_mem s.futures b res q hval hin hq
        rw [show ({ s with
            closed := s.closed.set i { b with state := finalState res },
            futures := resolveBatch s.futures b res } : PubState).futures =
          resolveBatch s.futures b res from rfl,
          resolveBatch_get_notin _ _ _ _ hnotin] at hq
        rcases h.pendingLive q hq with ⟨c, hc, hlive, r, hr, hseq2⟩
        rcases (mem_allBatches s c).1 hc with hcc | hcc
        · obtain ⟨j, hj⟩ := List.mem_iff_get?.1 hcc
          by_cases hij : j = i
          · subst hij
            rw [hb] at hj
            rw [← Option.some.inj hj] at hr
            exact absurd (hseq2 ▸ List.mem_map_of_mem PublishRequest.seq hr) hnotin
          · have hj' : (s.closed.set i { b with state := finalState res }).get? j = some c := by
              rw [List.get?_set_ne _ _ (fun hc2 => hij hc2.symm)]
              exact hj
            exact ⟨c, (mem_allBatches _ c).2 (Or.inl (List.get?_mem hj')), hlive, r, hr, hseq2⟩
        · exact ⟨c, (mem_allBatches _ c).2 (Or.inr hcc), hlive, r, hr, hseq2⟩
    · exact h

theorem Inv_step (s : PubState) (e : Event) (h : Inv s) : Inv (step s e) := by
  cases e with
  | submit m => exact Inv_submit s m h
  | timer => exact Inv_timerTrip s h
  | transport i res => exact Inv_transportDone s i res h
  | tick d => exact ⟨h.closedNotOpen, h.curOpen, h.seqNodup, h.seqBound,
      h.livePending, h.pendingLive⟩

theorem Inv_runFrom (evs : List Event) :
    ∀ s : PubState, Inv s → Inv (runFrom s evs) := by
  induction evs with
  | nil => intro s h; exact h
  | cons e evs ih => intro s h; rw [runFrom_cons]; exact ih _ (Inv_step s e h)

theorem Inv_run (cfg : BatchSettings) (evs : List Event) : Inv (run cfg evs) :=
  Inv_runFrom evs (init cfg) (Inv_init cfg)

theorem closeCurrent_futures (s : PubState) : (closeCurrent s).futures = s.futures := by
  unfold closeCurrent
  split <;> rfl

theorem timerTrip_futures (s : PubState) : (timerTrip s).futures = s.futures := by
  unfold timerTrip
  split
  · rfl
  · split
    · exact closeCurrent_futures s
    · rfl

theorem submit_futures_append (s : PubState) (m : Message) :
    ∃ w, (submit s m).1.futures = s.futures ++ [w] := by
  simp only [submit]
  split_ifs
  · exact ⟨_, rfl⟩
  · exact ⟨_, rfl⟩
  · exact ⟨_, rfl⟩

theorem step_preserves_resolved (s : PubState) (hinv : Inv s) (e : Event)
    (q : Nat) (v : FutureState) (hv : v ≠ FutureState.pending)
    (hres : s.futures.get? q = some v) :
    (step s e).futures.get? q = some v := by
  cases e with
  | submit m =>
    show (submit s m).1.futures.get? q = some v
    have hlt : q < s.futures.length := by
      rcases List.get?_eq_some.1 hres with ⟨hlt, _⟩
      exact hlt
    obtain ⟨w, hw⟩ := submit_futures_append s m
    rw [hw, List.get?_append hlt]
    exact hres
  | timer =>
    show (timerTrip s).futures.get? q = some v
    rw [timerTrip_futures]
    exact hres
  | transport i res =>
    show (transportDone s i res).futures.get? q = some v
    unfold transportDone
    split
    · exact hres
    · rename_i b hb
      split_ifs with hcond
      · obtain ⟨hcl, hval⟩ := hcond
        have hnotin : q ∉ batchSeqs b := by
          intro hin
          obtain ⟨r, hr, hrq⟩ := List.mem_map.1 hin
          have hpend := hinv.livePending b
            ((mem_allBatches s b).2 (Or.inl (List.get?_mem hb))) (Or.inr hcl) r hr
          rw [hrq, hres] at hpend
          exact hv (Option.some.inj hpend)
        show (resolveBatch s.futures b res).get? q = some v
        rw [resolveBatch_get_notin _ _ _ _ hnotin]
        exact hres
      · exact hres
  | tick d => exact hres

/-- C7: every PublishFuture is resolved at most once — once a future holds a
resolved value (a message ID or an error, never both, by construction of
`FutureState`), no step of the system ever changes it, so the completion
callback transition happens at most once per future. -/
theorem future_resolved_at_most_once (cfg : BatchSettings) (evs : List Event)
    (e : Event) (q : Nat) (v : FutureState) (hv : v ≠ FutureState.pending)
    (hres : (run cfg evs).futures.get? q = some v) :
    (step (run cfg evs) e).futures.get? q = some v :=
  step_preserves_resolved (run cfg evs) (Inv_run cfg evs) e q v hv hres

theorem future_resolved_at_most_once_w :
    (step (run ⟨10, 5, 1⟩ [Event.submit (msgOfSize 11)]) Event.timer).futures.get? 0 =
      some (FutureState.resolvedErr PubError.messageTooLarge) :=
  future_resolved_at_most_once ⟨10, 5, 1⟩ [Event.submit (msgOfSize 11)] Event.timer 0
    (FutureState.resolvedErr PubError.messageTooLarge) (by decide) (by decide)

theorem transportDone_eq (s : PubState) (i : Nat) (b : Batch) (res : TransportResult)
    (hb : s.closed.get? i = some b) (hcl : b.state = BatchState.closing)
    (hval : validResult res b) :
    transportDone s i res = { s with
      closed := s.closed.set i { b with state := finalState res },
      futures := resolveBatch s.futures b res } := by
  unfold transportDone
  split
  · rename_i heq
    rw [hb] at heq
    simp at heq
  · rename_i b2 heq
    rw [hb] at heq
    rw [← Option.some.inj heq]
    rw [if_pos ⟨hcl, hval⟩]

/-- C4: for every CLOSING batch handed to the Completion Tracker in a
reachable state: on a success result whose ordered ID sequence matches the
batch, the i-th request's future is resolved with the i-th ID; on an error
result, every future in the batch is resolved with that same transport
error; and the future of every request belonging to any other batch (another
queue position, or the current batch) is unchanged. -/
theorem transport_result_resolves_batch_futures (cfg : BatchSettings)
    (evs : List Event) (i : Nat) (b : Batch)
    (hb : (run cfg evs).closed.get? i = some b)
    (hcl : b.state = BatchState.closing) :
    (∀ ids : List String, ids.length = b.requests.length →
      ∀ (j : Nat) (hj : j < b.requests.length) (hj2 : j < ids.length),
        (transportDone (run cfg evs) i (TransportResult.ok ids)).futures.get?
            ((b.requests.get ⟨j, hj⟩).seq) =
          some (FutureState.resolvedId (ids.get ⟨j, hj2⟩))) ∧
    (∀ e : String, ∀ r ∈ b.requests,
      (transportDone (run cfg evs) i (TransportResult.err e)).futures.get? r.seq =
        some (FutureState.resolvedErr (PubError.transportError e))) ∧
    (∀ (res : TransportResult) (j : Nat) (b2 : Batch),
      (run cfg evs).closed.get? j = some b2 → j ≠ i → ∀ r ∈ b2.requests,
        (transportDone (run cfg evs) i res).futures.get? r.seq =
          (run cfg evs).futures.get? r.seq) ∧
    (∀ (res : TransportResult) (b2 : Batch), (run cfg evs).current = some b2 →
      ∀ r ∈ b2.requests,
        (transportDone (run cfg evs) i res).futures.get? r.seq =
          (run cfg evs).futures.get? r.seq) := by
  have hinv := Inv_run cfg evs
  have hmemb : b ∈ allBatches (run cfg evs) :=
    (mem_allBatches _ b).2 (Or.inl (List.get?_mem hb))
  have hnodupb : (b.requests.map PublishRequest.seq).Nodup :=
    (List.nodup_flatten.1 hinv.seqNodup).1 (batchSeqs b)
      (List.mem_map_of_mem batchSeqs hmemb)
  have hbound : ∀ r ∈ b.requests, r.seq < (run cfg evs).futures.length :=
    fun r hr => hinv.seqBound _ (mem_allSeqs _ b r hmemb hr)
  refine ⟨?_, ?_, ?_, ?_⟩
  · intro ids hlen j hj hj2
    rw [transportDone_eq _ i b (TransportResult.ok ids) hb hcl
      (show validResult (TransportResult.ok ids) b from hlen)]
    exact setIds_get_pos b.requests ids (run cfg evs).futures hnodupb hbound j hj hj2
  · intro e r hr
    rw [transportDone_eq _ i b (TransportResult.err e) hb hcl
      (show validResult (TransportResult.err e) b from trivial)]
    exact setErr_get_of_mem e b.requests (run cfg evs).futures r hnodupb hbound hr
  · intro res j b2 hjb hne r hr
    unfold transportDone
    split
    · rfl
    · rename_i b3 heq
      rw [hb] at heq
      rw [← Option.some.inj heq]
      split_ifs with hcond
      · show (resolveBatch (run cfg evs).futures b res).get? r.seq = _
        rw [resolveBatch_get_notin _ _ _ _ (fun hin =>
          seq_owner_unique _ hinv.seqNodup i j b b2 (allBatches_get_closed _ i b hb)
            (allBatches_get_closed _ j b2 hjb) (fun hc => hne hc.symm) r.seq hin
            (List.mem_map_of_mem PublishRequest.seq hr))]
      · rfl
  · intro res b2 hb2 r hr
    have hilt : i < (run cfg evs).closed.length := by
      rcases List.get?_eq_some.1 hb with ⟨hlt, _⟩
      exact hlt
    unfold transportDone
    split
    · rfl
    · rename_i b3 heq
      rw [hb] at heq
      rw [← Option.some.inj heq]
      split_ifs with hcond
      · show (resolveBatch (run cfg evs).futures b res).get? r.seq = _
        rw [resolveBatch_get_notin _ _ _ _ (fun hin =>
          seq_owner_unique _ hinv.seqNodup i (run cfg evs).closed.length b b2
            (allBatches_get_closed _ i b hb) (allBatches_get_current _ b2 hb2)
            (by omega) r.seq hin (List.mem_map_of_mem PublishRequest.seq hr))]
      · rfl

theorem transport_result_resolves_batch_futures_w :
    (transportDone (run ⟨10, 2, 5⟩ [Event.submit (msgOfSize 1), Event.submit (msgOfSize 1)]) 0
        (TransportResult.ok ["a", "b"])).futures.get? 0 =
      some (FutureState.resolvedId "a") ∧
    (transportDone (run ⟨10, 2, 5⟩ [Event.submit (msgOfSize 1), Event.submit (msgOfSize 1)]) 0
        (TransportResult.err "boom")).futures.get? 1 =
      some (FutureState.resolvedErr (PubError.transportError "boom")) := by
  have h := transport_result_resolves_batch_futures ⟨10, 2, 5⟩
    [Event.submit (msgOfSize 1), Event.submit (msgOfSize 1)] 0
    ⟨[⟨msgOfSize 1, 0⟩, ⟨msgOfSize 1, 1⟩], 2, 0, BatchState.closing⟩ (by decide) rfl
  exact ⟨h.1 ["a", "b"] (by decide) 0 (by decide) (by decide),
    h.2.1 "boom" ⟨msgOfSize 1, 1⟩ (by decide)⟩

theorem closeCurrent_current (s : PubState) : (closeCurrent s).current = none := by
  unfold closeCurrent
  split
  · rename_i heq
    exact heq
  · rfl

theorem foldl_resolve_not_pending_preserved (oracle : List PublishRequest → TransportResult) :
    ∀ (bs : List Batch) (fs : List FutureState) (q : Nat),
      fs.get? q ≠ some FutureState.pending →
      (bs.foldl (fun fs b => if b.state = BatchState.closing
        then resolveBatch fs b (oracle b.requests) else fs) fs).get? q ≠
        some FutureState.pending
  | [], _, _, h => h
  | b :: bs, fs, q, h => by
    rw [List.foldl_cons]
    apply foldl_resolve_not_pending_preserved oracle bs
    split
    · exact resolveBatch_not_pending_preserved fs b _ q h
    · exact h

theorem foldl_resolve_member_not_pending (oracle : List PublishRequest → TransportResult)
    (hor : ∀ rs, validFor (oracle rs) rs) :
    ∀ (bs : List Batch) (fs : List FutureState) (q : Nat) (b : Batch),
      b ∈ bs → b.state = BatchState.closing → q ∈ batchSeqs b →
      (bs.foldl (fun fs b => if b.state = BatchState.closing
        then resolveBatch fs b (oracle b.requests) else fs) fs).get? q ≠
        some FutureState.pending
  | [], _, _, _, hmem, _, _ => by simp at hmem
  | b0 :: bs, fs, q, b, hmem, hcl, hq => by
    rw [List.foldl_cons]
    rcases List.mem_cons.1 hmem with h | h
    · subst h
      apply foldl_resolve_not_pending_preserved oracle bs
      rw [if_pos hcl]
      exact resolveBatch_not_pending_of_mem fs b _ q (hor b.requests) hq
    · exact foldl_resolve_member_not_pending oracle hor bs _ q b h hcl hq

/-- C6: `shutdown` drains the publisher: starting from any reachable state,
after `shutdown` (with a transport oracle honouring the transport contract)
no batch remains OPEN — the current batch is closed and every handed-off
batch reaches a terminal SENT or FAILED state — and no future remains
unresolved. -/
theorem shutdown_drains_and_resolves (cfg : BatchSettings) (evs : List Event)
    (oracle : List PublishRequest → TransportResult)
    (hor : ∀ rs, validFor (oracle rs) rs) :
    (shutdown (run cfg evs) oracle).current = none ∧
    (∀ b ∈ (shutdown (run cfg evs) oracle).closed,
      b.state = BatchState.sent ∨ b.state = BatchState.failed) ∧
    (∀ f ∈ (shutdown (run cfg evs) oracle).futures, f ≠ FutureState.pending) := by
  have hinv1 : Inv (closeCurrent (run cfg evs)) :=
    Inv_closeCurrent _ (Inv_run cfg evs)
  have hcur1 : (closeCurrent (run cfg evs)).current = none :=
    closeCurrent_current (run cfg evs)
  refine ⟨?_, ?_, ?_⟩
  · show (closeCurrent (run cfg evs)).current = none
    exact hcur1
  · intro b' hb'
    obtain ⟨c, hc, hfc⟩ := List.mem_map.1 hb'
    rw [← hfc]
    by_cases hcl : c.state = BatchState.closing
    · rw [if_pos hcl]
      cases oracle c.requests <;> simp [finalState]
    · rw [if_neg hcl]
      have hno : c.state ≠ BatchState.opened := hinv1.closedNotOpen c hc
      cases hstate : c.state
      · exact absurd hstate hno
      · exact absurd hstate hcl
      · exact Or.inl rfl
      · exact Or.inr rfl
  · intro f hf
    intro hfp
    subst hfp
    obtain ⟨q, hq⟩ := List.mem_iff_get?.1 hf
    by_cases hp : (closeCurrent (run cfg evs)).futures.get? q = some FutureState.pending
    · rcases hinv1.pendingLive q hp with ⟨c, hc, hlive, r, hr, hseq⟩
      have hcc : c ∈ (closeCurrent (run cfg evs)).closed := by
        rcases (mem_allBatches _ c).1 hc with h2 | h2
        · exact h2
        · rw [hcur1] at h2
          exact absurd h2 (by simp)
      have hcl : c.state = BatchState.closing := by
        rcases hlive with h2 | h2
        · exact absurd h2 (hinv1.closedNotOpen c hcc)
        · exact h2
      exact foldl_resolve_member_not_pending oracle hor
        (closeCurrent (run cfg evs)).closed (closeCurrent (run cfg evs)).futures q c
        hcc hcl (hseq ▸ List.mem_map_of_mem PublishRequest.seq hr) hq
    · exact foldl_resolve_not_pending_preserved oracle
        (closeCurrent (run cfg evs)).closed (closeCurrent (run cfg evs)).futures q hp hq

theorem shutdown_drains_and_resolves_w :
    (shutdown (run ⟨10, 5, 1⟩ [Event.submit (msgOfSize 3), Event.submit (msgOfSize 2)])
      (fun _ => TransportResult.err "down")).current = none ∧
    (∀ b ∈ (shutdown (run ⟨10, 5, 1⟩ [Event.submit (msgOfSize 3), Event.submit (msgOfSize 2)])
      (fun _ => TransportResult.err "down")).closed,
      b.state = BatchState.sent ∨ b.state = BatchState.failed) ∧
    (∀ f ∈ (shutdown (run ⟨10, 5, 1⟩ [Event.submit (msgOfSize 3), Event.submit (msgOfSize 2)])
      (fun _ => TransportResult.err "down")).futures, f ≠ FutureState.pending) :=
  shutdown_drains_and_resolves ⟨10, 5, 1⟩
    [Event.submit (msgOfSize 3), Event.submit (msgOfSize 2)]
    (fun _ => TransportResult.err "down") (fun _ => trivial)

end Batcher

namespace Publisher

theorem ehStep_ne_returned : ∀ s : EHState, s.pc ≠ EHPc.returned →
    (ehStep s).pc ≠ EHPc.returned
  | ⟨EHPc.forLoop n, p⟩, _ => by
    unfold ehStep
    dsimp only
    split_ifs <;> simp
  | ⟨EHPc.afterPrint, p⟩, _ => by simp [ehStep]
  | ⟨EHPc.whileLoop, p⟩, _ => by simp [ehStep]
  | ⟨EHPc.returned, p⟩, h => absurd rfl h

theorem ehRun_succ (k : Nat) : ehRun (k + 1) = ehStep (ehRun k) :=
  Function.iterate_succ_apply' ehStep k ehInit

theorem ehRun_ne_returned : ∀ k : Nat, (ehRun k).pc ≠ EHPc.returned
  | 0 => by simp [ehRun, ehInit]
  | k + 1 => by
    rw [ehRun_succ]
    exact ehStep_ne_returned _ (ehRun_ne_returned k)

theorem ehStep_whileLoop (s : EHState) (h : s.pc = EHPc.whileLoop) :
    (ehStep s).pc = EHPc.whileLoop := by
  unfold ehStep
  rw [h]

theorem ehRun_whileLoop_forever : ∀ k : Nat, 11 ≤ k → (ehRun k).pc = EHPc.whileLoop := by
  intro k
  induction k with
  | zero => intro h; exact absurd h (by omega)
  | succ k ih =>
    intro h
    by_cases hk : 11 ≤ k
    · rw [ehRun_succ]
      exact ehStep_whileLoop _ (ih hk)
    · have hk10 : k = 10 := by omega
      subst hk10
      decide

/-- C9: `publish_messages_with_error_handler` never terminates normally for
any input: after publishing its nine messages and registering their
callbacks it reaches the unconditional `while True: time.sleep(60)` loop,
stays in that loop on every further step, and no execution step ever
reaches the function's return point. -/
theorem publish_messages_with_error_handler_diverges :
    (∀ k : Nat, (ehRun k).pc ≠ EHPc.returned) ∧
    (ehRun 11).pc = EHPc.whileLoop ∧ (ehRun 11).published = 9 ∧
    (∀ k : Nat, 11 ≤ k → (ehRun k).pc = EHPc.whileLoop) :=
  ⟨ehRun_ne_returned, by decide, by decide, ehRun_whileLoop_forever⟩

/-- C10: invoked with just a `project_id` and no subcommand, argument
parsing succeeds with `command = None`, and the `if/elif` dispatch chain
matches none of the eight branches, so the process performs no topic or
publish operation at all. -/
theorem no_subcommand_no_dispatch (pid : String) :
    parseArgs [pid] = Except.ok ⟨pid, none, none⟩ ∧
    dispatch ⟨pid, none, none⟩ = none :=
  ⟨rfl, rfl⟩

theorem no_subcommand_no_dispatch_w :
    parseArgs ["my-project"] = Except.ok ⟨"my-project", none, none⟩ ∧
    dispatch ⟨"my-project", none, none⟩ = none :=
  no_subcommand_no_dispatch "my-project"

end Publisher
